import Mathlib

/-!
Verification of the line-matching core of the minigrep CLI tool
(`src/lib.rs`: `search` and `search_case_insensitive`).

Rust `&str` values are modelled as `List Char`.  Rust's `str::lines`
iterator is embedded as the recursive function `lines`: text is split at
every `'\n'`; a `'\r'` immediately preceding a `'\n'` belongs to the line
break and is removed; a final line break produces no trailing empty line;
the final segment (not terminated by a break) is kept verbatim, including
a trailing `'\r'`.  Rust `str::contains` is embedded as `strContains`
(contiguous-substring test) and `str::to_lowercase` as a per-character
simple, locale-independent lowercase map, which is the case-folding
policy the specification prescribes.
-/

namespace Minigrep

/-- Text, the model of Rust `&str`: a sequence of characters. -/
abbrev Str := List Char

/-- Prepend a character to the first line of an already-split tail of
lines; used by `lines` when the character is not part of a line break. -/
def consFirst (a : Char) : List Str → List Str
  | [] => [[a]]
  | l :: ls => (a :: l) :: ls

/-- Embedding of Rust `str::lines` applied to `contents`
(`contents.lines()` in `search` and `search_case_insensitive`):
split at each `'\n'`, a `'\r'` immediately before a `'\n'` is part of the
break, a trailing break yields no extra empty line, and the final
unterminated segment is kept verbatim. -/
def lines : Str → List Str
  | [] => []
  | [c] => if c = '\n' then [[]] else [[c]]
  | c :: c' :: cs =>
    if c = '\n' then [] :: lines (c' :: cs)
    else if c = '\r' ∧ c' = '\n' then [] :: lines cs
    else consFirst c (lines (c' :: cs))

/-- `isPrefOf q s` holds when `q` is a prefix of `s`; the anchored test
underlying substring containment. -/
def isPrefOf : Str → Str → Bool
  | [], _ => true
  | _ :: _, [] => false
  | a :: q, b :: s => a == b && isPrefOf q s

/-- Embedding of Rust `s.contains(q)`: `q` occurs in `s` as a contiguous
character-for-character substring. -/
def strContains : Str → Str → Bool
  | [], q => q.isEmpty
  | b :: s, q => isPrefOf q (b :: s) || strContains s q

/-- Embedding of Rust `str::to_lowercase` as a per-character simple,
locale-independent lowercase map (the specification's case-folding
policy), applied identically to query and line. -/
def toLowercase (s : Str) : Str := s.map Char.toLower

/-- Embedding of `search` (src/lib.rs lines 45-49): keep, in order, the
lines of `contents` that contain `query` case-sensitively.  The Rust
lazy iterator is materialised as the list of all its elements, the
substitute the specification declares observationally equivalent. -/
def search (query contents : Str) : List Str :=
  (lines contents).filter fun line => strContains line query

/-- Embedding of `search_case_insensitive` (src/lib.rs lines 71-75):
keep, in order, the lines whose lowercase form contains the lowercase
form of `query`, both folded freshly per line. -/
def search_case_insensitive (query contents : Str) : List Str :=
  (lines contents).filter fun line =>
    strContains (toLowercase line) (toLowercase query)

/-- `Rejoins ls c` holds when the text `c` is reconstructed by
concatenating the lines `ls` in order, restoring between consecutive
lines the line break each one was split at — either `"\n"` or `"\r\n"` —
with the final line either unterminated (kept verbatim) or, when the
text ended in a break, followed by that break. -/
inductive Rejoins : List Str → Str → Prop
  | nil : Rejoins [] []
  | single (l : Str) : Rejoins [l] l
  | cons_lf (l : Str) (ls : List Str) (c : Str) :
      Rejoins ls c → Rejoins (l :: ls) (l ++ '\n' :: c)
  | cons_crlf (l : Str) (ls : List Str) (c : Str) :
      Rejoins ls c → Rejoins (l :: ls) (l ++ '\r' :: '\n' :: c)

/-! ### Basic lemmas about the substring test -/

theorem isPrefOf_iff (q s : Str) : isPrefOf q s = true ↔ ∃ t, s = q ++ t := by
  induction q generalizing s with
  | nil =>
    simp [isPrefOf]
  | cons a q ih =>
    cases s with
    | nil => simp [isPrefOf]
    | cons b s =>
      simp only [isPrefOf, Bool.and_eq_true, beq_iff_eq, ih, List.cons_append,
        List.cons.injEq]
      constructor
      · rintro ⟨rfl, t, rfl⟩
        exact ⟨t, rfl, rfl⟩
      · rintro ⟨t, rfl, rfl⟩
        exact ⟨rfl, t, rfl⟩

theorem strContains_iff (s q : Str) :
    strContains s q = true ↔ ∃ p t, s = p ++ q ++ t := by
  induction s with
  | nil =>
    cases q <;> simp [strContains, List.isEmpty]
  | cons b s ih =>
    simp only [strContains, Bool.or_eq_true, isPrefOf_iff, ih]
    constructor
    · rintro (⟨t, h⟩ | ⟨p, t, rfl⟩)
      · exact ⟨[], t, by simpa using h⟩
      · exact ⟨b :: p, t, rfl⟩
    · rintro ⟨p, t, h⟩
      cases p with
      | nil => exact Or.inl ⟨t, by simpa using h⟩
      | cons x p =>
        rw [List.cons_append, List.cons_append] at h
        obtain ⟨rfl, rfl⟩ := List.cons.injEq .. ▸ h
        exact Or.inr ⟨p, t, by simp⟩

theorem strContains_nil (s : Str) : strContains s [] = true := by
  cases s with
  | nil => rfl
  | cons b s => simp [strContains, isPrefOf]

/-! ### Lemmas about `lines` -/

theorem lines_single (c : Char) (h : c ≠ '\n') : lines [c] = [[c]] := by
  simp [lines, h]

theorem lines_cons_nl (c' : Char) (cs : Str) :
    lines ('\n' :: c' :: cs) = [] :: lines (c' :: cs) := by
  simp [lines]

theorem lines_cons_crlf (cs : Str) :
    lines ('\r' :: '\n' :: cs) = [] :: lines cs := by
  simp [lines]

theorem lines_cons_other (c c' : Char) (cs : Str) (h1 : c ≠ '\n')
    (h2 : ¬(c = '\r' ∧ c' = '\n')) :
    lines (c :: c' :: cs) = consFirst c (lines (c' :: cs)) := by
  simp [lines, h1, h2]

theorem mem_consFirst {a : Char} {ls : List Str} {l : Str}
    (h : l ∈ consFirst a ls) :
    (ls = [] ∧ l = [a]) ∨ ∃ l₀ ls', ls = l₀ :: ls' ∧ (l = a :: l₀ ∨ l ∈ ls') := by
  cases ls with
  | nil =>
    simp only [consFirst, List.mem_singleton] at h
    exact Or.inl ⟨rfl, h⟩
  | cons l₀ ls' =>
    simp only [consFirst, List.mem_cons] at h
    exact Or.inr ⟨l₀, ls', rfl, h⟩

theorem lines_no_newline (c : Str) : ∀ l ∈ lines c, '\n' ∉ l := by
  induction c using lines.induct with
  | case1 => simp [lines]
  | case2 => simp [lines]
  | case3 c h =>
    intro l hl
    rw [lines_single c h] at hl
    rw [List.mem_singleton] at hl
    subst hl
    simp only [List.mem_singleton]
    exact fun hc => h hc.symm
  | case4 c' cs ih =>
    intro l hl
    rw [lines_cons_nl] at hl
    rcases List.mem_cons.mp hl with rfl | hl
    · simp
    · exact ih l hl
  | case5 c c' cs h1 h2 ih =>
    obtain ⟨rfl, rfl⟩ := h2
    intro l hl
    rw [lines_cons_crlf] at hl
    rcases List.mem_cons.mp hl with rfl | hl
    · simp
    · exact ih l hl
  | case6 c c' cs h1 h2 ih =>
    intro l hl
    rw [lines_cons_other c c' cs h1 h2] at hl
    rcases mem_consFirst hl with ⟨_, rfl⟩ | ⟨l₀, ls', he, rfl | hmem⟩
    · simp only [List.mem_singleton]
      exact fun hc => h1 hc.symm
    · intro hc
      rcases List.mem_cons.mp hc with hc | hc
      · exact h1 hc.symm
      · exact ih l₀ (he ▸ List.mem_cons_self l₀ ls') hc
    · exact ih l (he ▸ List.mem_cons_of_mem l₀ hmem)

theorem rejoins_consFirst (a : Char) {ls : List Str} {s : Str}
    (h : Rejoins ls s) : Rejoins (consFirst a ls) (a :: s) := by
  cases h with
  | nil => exact Rejoins.single [a]
  | single => exact Rejoins.single (a :: s)
  | cons_lf l ls c hr => exact Rejoins.cons_lf (a :: l) ls c hr
  | cons_crlf l ls c hr => exact Rejoins.cons_crlf (a :: l) ls c hr

theorem lines_append_newline (c : Str) :
    c ≠ [] → c.getLast? ≠ some '\n' → c.getLast? ≠ some '\r' →
    lines (c ++ ['\n']) = lines c := by
  induction c using lines.induct with
  | case1 =>
    intro h0 _ _
    exact absurd rfl h0
  | case2 =>
    intro _ hn _
    exact absurd (by decide) hn
  | case3 c h =>
    intro _ _ hr
    have hcr : c ≠ '\r' := fun e => hr (by rw [e]; rfl)
    have e : ([c] : Str) ++ ['\n'] = c :: '\n' :: [] := rfl
    rw [e, lines_cons_other c '\n' [] h (fun hh => hcr hh.1), lines_single c h]
    have e3 : lines ['\n'] = [[]] := by simp [lines]
    rw [e3]
    rfl
  | case4 c' cs ih =>
    intro _ hn hr
    have hn' : (c' :: cs).getLast? ≠ some '\n' := by
      rwa [List.getLast?_cons_cons] at hn
    have hr' : (c' :: cs).getLast? ≠ some '\r' := by
      rwa [List.getLast?_cons_cons] at hr
    have e : ('\n' :: c' :: cs : Str) ++ ['\n'] = '\n' :: c' :: (cs ++ ['\n']) := rfl
    rw [e, lines_cons_nl, lines_cons_nl]
    have e2 : (c' :: (cs ++ ['\n']) : Str) = (c' :: cs) ++ ['\n'] := rfl
    rw [e2, ih (List.cons_ne_nil c' cs) hn' hr']
  | case5 c c' cs h1 h2 ih =>
    obtain ⟨rfl, rfl⟩ := h2
    intro _ hn hr
    cases cs with
    | nil => exact absurd (by decide) hn
    | cons d ds =>
      have hn' : (d :: ds).getLast? ≠ some '\n' := by
        rwa [List.getLast?_cons_cons, List.getLast?_cons_cons] at hn
      have hr' : (d :: ds).getLast? ≠ some '\r' := by
        rwa [List.getLast?_cons_cons, List.getLast?_cons_cons] at hr
      have e : ('\r' :: '\n' :: d :: ds : Str) ++ ['\n'] =
          '\r' :: '\n' :: (d :: (ds ++ ['\n'])) := rfl
      rw [e, lines_cons_crlf, lines_cons_crlf]
      have e2 : (d :: (ds ++ ['\n']) : Str) = (d :: ds) ++ ['\n'] := rfl
      rw [e2, ih (List.cons_ne_nil d ds) hn' hr']
  | case6 c c' cs h1 h2 ih =>
    intro _ hn hr
    have hn' : (c' :: cs).getLast? ≠ some '\n' := by
      rwa [List.getLast?_cons_cons] at hn
    have hr' : (c' :: cs).getLast? ≠ some '\r' := by
      rwa [List.getLast?_cons_cons] at hr
    have e : (c :: c' :: cs : Str) ++ ['\n'] = c :: c' :: (cs ++ ['\n']) := rfl
    rw [e, lines_cons_other c c' (cs ++ ['\n']) h1 h2,
      lines_cons_other c c' cs h1 h2]
    have e2 : (c' :: (cs ++ ['\n']) : Str) = (c' :: cs) ++ ['\n'] := rfl
    rw [e2, ih (List.cons_ne_nil c' cs) hn' hr']

/-! ### Claims -/

/-- Claim C1: for every query `q` and contents `c`, a line of `c` appears in
the case-sensitive `search` result iff it contains `q` as an exact
character-for-character substring; no line is included or excluded for any
other reason. -/
theorem c1_search_mem_iff (q c l : Str) :
    l ∈ search q c ↔ l ∈ lines c ∧ ∃ p t, l = p ++ q ++ t := by
  rw [search, List.mem_filter, strContains_iff]

/-- Witness for C1 at `q = "b"`, `c = "ab"`, `l = "ab"`. -/
theorem c1_search_mem_iff_witness :
    ['a', 'b'] ∈ search ['b'] ['a', 'b'] ↔
      ['a', 'b'] ∈ lines ['a', 'b'] ∧ ∃ p t, ['a', 'b'] = p ++ ['b'] ++ t :=
  c1_search_mem_iff ['b'] ['a', 'b'] ['a', 'b']

/-- Claim C2: for every query `q` and contents `c`, a line of `c` appears in
the `search_case_insensitive` result iff the lowercase-folded form of the
line contains the lowercase-folded form of `q`, the same fold applied
independently to both operands per line. -/
theorem c2_search_ci_mem_iff (q c l : Str) :
    l ∈ search_case_insensitive q c ↔
      l ∈ lines c ∧ ∃ p t, toLowercase l = p ++ toLowercase q ++ t := by
  rw [search_case_insensitive, List.mem_filter, strContains_iff]

/-- Witness for C2 at `q = "B"`, `c = "ab"`, `l = "ab"`. -/
theorem c2_search_ci_mem_iff_witness :
    ['a', 'b'] ∈ search_case_insensitive ['B'] ['a', 'b'] ↔
      ['a', 'b'] ∈ lines ['a', 'b'] ∧
        ∃ p t, toLowercase ['a', 'b'] = p ++ toLowercase ['B'] ++ t :=
  c2_search_ci_mem_iff ['B'] ['a', 'b'] ['a', 'b']

/-- Claim C3: for every query `q` and contents `c`, the result of either
search function is a subsequence of the line sequence of `c`: matching
lines keep their relative order and no line is duplicated or reordered. -/
theorem c3_search_sublist (q c : Str) :
    List.Sublist (search q c) (lines c) ∧
      List.Sublist (search_case_insensitive q c) (lines c) :=
  ⟨List.filter_sublist _, List.filter_sublist _⟩

/-- Claim C4: for every contents `c`, the case-sensitive search with the
empty query returns exactly the full line sequence of `c`, in order,
unchanged. -/
theorem c4_search_empty_query (c : Str) : search [] c = lines c := by
  rw [search]
  refine List.filter_eq_self.mpr ?_
  intro l _
  exact strContains_nil l

/-- Claim C5: for every query `q`, both search functions applied to the
empty contents return the empty sequence. -/
theorem c5_search_empty_contents (q : Str) :
    search q [] = [] ∧ search_case_insensitive q [] = [] :=
  ⟨rfl, rfl⟩

/-- Claim C6, counterexample: with the universal `'\n'` line-break
convention, joining the lines of `"a\r\nb"` with `'\n'` (with or without a
trailing break) does not reconstruct the contents — the `'\r'` stripped
from the internal `"\r\n"` break is lost, which is not a trailing-newline
difference. -/
theorem c6_join_counterexample :
    ¬ (List.intercalate ['\n'] (lines ['a', '\r', '\n', 'b']) =
         ['a', '\r', '\n', 'b'] ∨
       List.intercalate ['\n'] (lines ['a', '\r', '\n', 'b']) ++ ['\n'] =
         ['a', '\r', '\n', 'b']) := by
  decide

/-- Claim C6, amended: splitting is a total, order-preserving
decomposition: `c` is reconstructed by concatenating the lines in order,
restoring at each internal break either `"\n"` or `"\r\n"` (a carriage
return immediately before a newline belongs to the break), the final line
being either unterminated or followed by such a break. -/
theorem c6_lines_rejoins (c : Str) : Rejoins (lines c) c := by
  induction c using lines.induct with
  | case1 => exact Rejoins.nil
  | case2 =>
    have e : lines ['\n'] = [[]] := by simp [lines]
    rw [e]
    exact Rejoins.cons_lf [] [] [] Rejoins.nil
  | case3 c h =>
    rw [lines_single c h]
    exact Rejoins.single [c]
  | case4 c' cs ih =>
    rw [lines_cons_nl]
    exact Rejoins.cons_lf [] _ _ ih
  | case5 c c' cs h1 h2 ih =>
    obtain ⟨rfl, rfl⟩ := h2
    rw [lines_cons_crlf]
    exact Rejoins.cons_crlf [] _ _ ih
  | case6 c c' cs h1 h2 ih =>
    rw [lines_cons_other c c' cs h1 h2]
    exact rejoins_consFirst c ih

/-- Claim C7: both search functions are total over all text inputs,
including empty query and empty contents: for every `q` and `c` they
return a (possibly empty) sequence, never more lines than `c` has; there
is no failure or error outcome (the embedding needs no `Option`). -/
theorem c7_search_total (q c : Str) :
    (∃ r : List Str, search q c = r ∧ r.length ≤ (lines c).length) ∧
      (∃ r : List Str, search_case_insensitive q c = r ∧
        r.length ≤ (lines c).length) :=
  ⟨⟨search q c, rfl, List.length_filter_le _ _⟩,
   ⟨search_case_insensitive q c, rfl, List.length_filter_le _ _⟩⟩

/-- Claim C8: both search functions are deterministic: two invocations on
identical inputs yield element-wise identical result sequences. -/
theorem c8_search_deterministic (q₁ q₂ c₁ c₂ : Str) (hq : q₁ = q₂)
    (hc : c₁ = c₂) :
    search q₁ c₁ = search q₂ c₂ ∧
      search_case_insensitive q₁ c₁ = search_case_insensitive q₂ c₂ := by
  subst hq
  subst hc
  exact ⟨rfl, rfl⟩

/-- Witness for C8 at `q = "a"`, `c = "a\n"`. -/
theorem c8_search_deterministic_witness :
    search ['a'] ['a', '\n'] = search ['a'] ['a', '\n'] ∧
      search_case_insensitive ['a'] ['a', '\n'] =
        search_case_insensitive ['a'] ['a', '\n'] :=
  c8_search_deterministic ['a'] ['a'] ['a', '\n'] ['a', '\n'] rfl rfl

/-- Claim C9, counterexample: appending one trailing newline is not always
invisible: for `c = "a\n"` (already break-terminated) and the empty query,
`search` on `"a\n\n"` yields `["a", ""]` while on `"a\n"` it yields
`["a"]`. -/
theorem c9_trailing_newline_counterexample :
    ¬ (search [] (['a', '\n'] ++ ['\n']) = search [] ['a', '\n']) := by
  decide

/-- Claim C9, amended: when the contents are nonempty and do not already
end with `'\n'` or `'\r'`, appending a single trailing newline leaves the
result of either search function unchanged; in particular the
case-sensitive search with empty query on `"a\n"` yields exactly the one
line `"a"`. -/
theorem c9_trailing_newline_amended (q c : Str) (h0 : c ≠ [])
    (hn : c.getLast? ≠ some '\n') (hr : c.getLast? ≠ some '\r') :
    search q (c ++ ['\n']) = search q c ∧
      search_case_insensitive q (c ++ ['\n']) = search_case_insensitive q c ∧
      search [] ['a', '\n'] = [['a']] := by
  refine ⟨?_, ?_, by decide⟩
  · show (lines (c ++ ['\n'])).filter _ = (lines c).filter _
    rw [lines_append_newline c h0 hn hr]
  · show (lines (c ++ ['\n'])).filter _ = (lines c).filter _
    rw [lines_append_newline c h0 hn hr]

/-- Witness for the amended C9 at `q = "b"`, `c = "a"`. -/
theorem c9_trailing_newline_amended_witness :
    search ['b'] (['a'] ++ ['\n']) = search ['b'] ['a'] ∧
      search_case_insensitive ['b'] (['a'] ++ ['\n']) =
        search_case_insensitive ['b'] ['a'] ∧
      search [] ['a', '\n'] = [['a']] :=
  c9_trailing_newline_amended ['b'] ['a'] (by decide) (by decide) (by decide)

/-- Claim C10: every line yielded by either search function contains no
newline character, and a carriage return terminating a line together with
a following newline is excluded from the yielded line: on `"a\r\nb"` with
empty query the output is exactly `"a"`, `"b"`. -/
theorem c10_search_output_clean :
    (∀ q c l, l ∈ search q c → '\n' ∉ l) ∧
      (∀ q c l, l ∈ search_case_insensitive q c → '\n' ∉ l) ∧
      search [] ['a', '\r', '\n', 'b'] = [['a'], ['b']] := by
  refine ⟨?_, ?_, by decide⟩
  · intro q c l hl
    exact lines_no_newline c l (List.mem_of_mem_filter hl)
  · intro q c l hl
    exact lines_no_newline c l (List.mem_of_mem_filter hl)

/-- Witness for C10: the line `"a"` of `search "" "a"` has no newline. -/
theorem c10_search_output_clean_witness : '\n' ∉ (['a'] : Str) :=
  c10_search_output_clean.1 [] ['a'] ['a'] (by decide)

end Minigrep
